import Mathlib

/-!
Verification of the repository-graph analysis core of the JFrog Artifactory
analyser (src/advanced_detection.py and src/jfrog_analyser.py).

Python strings are embedded as lists of characters (`Str`), so that the
slicing / splitting / prefix operations the builder performs on URLs and
node identifiers are plain structural recursion.  The networkx `DiGraph`
is embedded as a `NxDiGraph`: an insertion-ordered, duplicate-free list of
nodes carrying attribute records, and an insertion-ordered list of edges
that is duplicate-free per `(source, target)` pair, exactly the set
semantics `add_node` / `add_edge` enforce.

The library calls `nx.simple_cycles` and `nx.all_simple_paths` are
modelled by their contracts: `nx.simple_cycles` returns every simple
directed cycle exactly once up to rotation (order unspecified), so its
result is modelled as the rotation-closed membership predicate
`isSimpleCycleB`; `nx.all_simple_paths G s t cutoff` returns every simple
path from `s` to `t` with at most `cutoff` edges (hence at most
`cutoff + 1` nodes), modelled by the membership predicate
`isSimplePathUpToB`.  Detectors whose Python value is a list of paths or
cycles are therefore embedded as the characteristic function of the set
of lists they return.
-/

/-- Embedding of a Python string as a list of characters. -/
abbrev Str := List Char

/-- Coerce a Lean string literal into the `Str` embedding. -/
def chars (s : String) : Str := s.data

/-- Python `s.startswith(p)` : `hasPfx p s` is true when `p` is a prefix of `s`. -/
def hasPfx : Str → Str → Bool
  | [], _ => true
  | _ :: _, [] => false
  | c :: p, d :: s => decide (c = d) && hasPfx p s

/-- Python `s.split(sep)` for a one-character separator: keeps empty fields,
always returns a nonempty list of fields. -/
def splitOnChar (sep : Char) : Str → List Str
  | [] => [[]]
  | c :: rest =>
      match splitOnChar sep rest with
      | [] => [[]]
      | h :: t => if c = sep then [] :: h :: t else (c :: h) :: t

/-- Python `s.strip(ch)` for a one-character argument: removes every leading
and trailing occurrence of `ch`. -/
def stripChar (ch : Char) (s : Str) : Str :=
  ((s.dropWhile (fun c => decide (c = ch))).reverse.dropWhile (fun c => decide (c = ch))).reverse

/-- First-occurrence deduplication, the key order of a Python dict built by
repeated insertion (used for `set(...)` sizes and dict grouping). -/
def dedupF {α : Type} [DecidableEq α] (l : List α) : List α :=
  l.foldl (fun acc x => if x ∈ acc then acc else acc ++ [x]) []

/-- All index-ordered pairs `(l[i], l[j])` with `i < j`, as produced by the
nested loops of `detect_repository_shadowing`. -/
def allPairs {α : Type} : List α → List (α × α)
  | [] => []
  | x :: xs => xs.map (fun y => (x, y)) ++ allPairs xs

/-- Attribute record of a graph node, as set by
`JFrogAnalyser.build_repository_graph` (`instance`, `repo_key`, `repo_type`,
`package_type`); nodes auto-added by `add_edge` carry no attributes. -/
structure NodeData where
  instName : Option Str
  repoKey : Option Str
  repoType : Option String
  packageType : Option String
deriving DecidableEq, Repr

/-- The empty attribute record of a node auto-added by `add_edge`. -/
def emptyNodeData : NodeData := ⟨none, none, none, none⟩

/-- A directed edge with its `edge_type` attribute (`none` when `add_edge`
was called without attributes, as in the subgraph constructions). -/
structure Edge where
  src : Str
  tgt : Str
  typ : Option String
deriving DecidableEq, Repr

/-- Embedding of `networkx.DiGraph`: nodes in insertion order with their
attribute records, edges in insertion order.  Graphs built through
`addNode` / `addEdge` keep node names and `(src, tgt)` pairs duplicate-free. -/
structure NxDiGraph where
  nodes : List (Str × NodeData)
  edges : List Edge
deriving DecidableEq, Repr

/-- The node identifiers of a graph, in insertion order (`graph.nodes()`). -/
def NxDiGraph.nodeList (g : NxDiGraph) : List Str := g.nodes.map Prod.fst

/-- `graph.add_node(n, **attrs)` : insert a node or replace its attributes. -/
def NxDiGraph.addNode (g : NxDiGraph) (n : Str) (d : NodeData) : NxDiGraph :=
  if n ∈ g.nodeList then
    { g with nodes := g.nodes.map (fun p => if p.1 = n then (n, d) else p) }
  else { g with nodes := g.nodes ++ [(n, d)] }

/-- The implicit node insertion `add_edge` performs for a missing endpoint. -/
def NxDiGraph.addNodeIfAbsent (g : NxDiGraph) (n : Str) : NxDiGraph :=
  if n ∈ g.nodeList then g else { g with nodes := g.nodes ++ [(n, emptyNodeData)] }

/-- The edge-list update of `add_edge` once both endpoints are present: an
existing `(u, v)` edge has its attributes updated (a `none` payload leaves
the stored `edge_type` unchanged, matching a no-attribute `add_edge` call),
a new pair is appended. -/
def NxDiGraph.addEdgeRaw (g : NxDiGraph) (u v : Str) (t : Option String) : NxDiGraph :=
  if (u, v) ∈ g.edges.map (fun e => (e.src, e.tgt)) then
    { g with edges := g.edges.map (fun e =>
        if e.src = u ∧ e.tgt = v then ⟨e.src, e.tgt, t.orElse (fun _ => e.typ)⟩ else e) }
  else { g with edges := g.edges ++ [⟨u, v, t⟩] }

/-- `graph.add_edge(u, v, edge_type=t)` : endpoints are auto-added, then the
edge list is updated. -/
def NxDiGraph.addEdge (g : NxDiGraph) (u v : Str) (t : Option String) : NxDiGraph :=
  ((g.addNodeIfAbsent u).addNodeIfAbsent v).addEdgeRaw u v t

/-- `graph.has_edge(u, v)` as a boolean over the edge list. -/
def hasEdgeB (g : NxDiGraph) (u v : Str) : Bool :=
  g.edges.any (fun e => decide (e.src = u) && decide (e.tgt = v))

/-- `graph.in_degree(n)` : number of edges whose target is `n`. -/
def NxDiGraph.inDegree (g : NxDiGraph) (n : Str) : Nat :=
  (g.edges.filter (fun e => decide (e.tgt = n))).length

/-- `graph.out_degree(n)` : number of edges whose source is `n`. -/
def NxDiGraph.outDegree (g : NxDiGraph) (n : Str) : Nat :=
  (g.edges.filter (fun e => decide (e.src = n))).length

/-- `graph.successors(n)` in adjacency (insertion) order. -/
def NxDiGraph.successors (g : NxDiGraph) (n : Str) : List Str :=
  (g.edges.filter (fun e => decide (e.src = n))).map Edge.tgt

/-- `graph.nodes[n].get('repo_type')` : the `repo_type` attribute of a node,
`none` when the node is absent or carries no such attribute. -/
def NxDiGraph.repoTypeOf (g : NxDiGraph) (n : Str) : Option String :=
  match g.nodes.find? (fun p => decide (p.1 = n)) with
  | some p => p.2.repoType
  | none => none

/-- Consecutive-edge check: every adjacent pair of the list is an edge. -/
def chainEdgesB (g : NxDiGraph) : List Str → Bool
  | [] => true
  | [_] => true
  | a :: b :: rest => hasEdgeB g a b && chainEdgesB g (b :: rest)

/-- Membership model of `nx.simple_cycles(g)`: `c` is a nonempty duplicate-free
node list whose consecutive pairs, including the closing pair back to the
head, are all edges.  The model is rotation-closed since networkx leaves the
chosen rotation unspecified. -/
def isSimpleCycleB (g : NxDiGraph) (c : List Str) : Bool :=
  match c with
  | [] => false
  | h :: t => decide (h :: t).Nodup && chainEdgesB g ((h :: t) ++ [h])

/-- Membership model of `nx.all_simple_paths(g, s, t, cutoff)`: a simple path
from `s` to `t` with at most `cutoff` edges, i.e. at most `cutoff + 1` nodes
(the networkx cutoff counts edges). -/
def isSimplePathUpToB (g : NxDiGraph) (cutoff : Nat) (s t : Str) (p : List Str) : Bool :=
  decide (p.head? = some s) && decide (p.getLast? = some t) && decide p.Nodup &&
    chainEdgesB g p && decide (p.length ≤ cutoff + 1)

/-- The edge-filtered subgraph both `find_include_cycles` and
`find_remote_chains` build: a fresh graph receiving `add_edge(u, v)` for every
edge of `g` whose `edge_type` equals `ty`. -/
def subgraphByType (g : NxDiGraph) (ty : String) : NxDiGraph :=
  g.edges.foldl (fun h e => if e.typ = some ty then h.addEdge e.src e.tgt none else h) ⟨[], []⟩

/-- `AdvancedDetection.find_include_cycles`: simple cycles of the
includes-only subgraph, as the characteristic function of the returned set. -/
def find_include_cycles (g : NxDiGraph) (c : List Str) : Bool :=
  isSimpleCycleB (subgraphByType g "includes") c

/-- `AdvancedDetection.find_remote_chains`: over the remote-only subgraph, for
every node with positive out-degree and every distinct target node, all simple
paths with `cutoff=10`, kept when `len(path) > 1`.  Characteristic function of
the returned set of paths. -/
def find_remote_chains (g : NxDiGraph) (p : List Str) : Bool :=
  (subgraphByType g "remote").nodeList.any (fun s =>
    decide (0 < (subgraphByType g "remote").outDegree s) &&
      (subgraphByType g "remote").nodeList.any (fun t =>
        decide (s ≠ t) && isSimplePathUpToB (subgraphByType g "remote") 10 s t p &&
          decide (1 < p.length)))

/-- Python `node.split(':')[0]`, the instance prefix of a node identifier. -/
def firstSeg (n : Str) : Str := (splitOnChar ':' n).headD []

/-- Python `node.split(':')[-1]`, the repository-key suffix of a node identifier. -/
def lastSeg (n : Str) : Str := (splitOnChar ':' n).getLastD []

/-- `AdvancedDetection.find_cross_instance_loops`: the simple cycles of `g`
whose nodes carry more than one distinct instance prefix.  Characteristic
function of the returned set of cycles. -/
def find_cross_instance_loops (g : NxDiGraph) (c : List Str) : Bool :=
  isSimpleCycleB g c && decide (1 < (dedupF (c.map firstSeg)).length)

/-- `AdvancedDetection.detect_repository_shadowing`: group the nodes by their
repository-key suffix; for every group with more than one node spanning more
than one instance, emit every index-ordered pair of the group. -/
def detect_repository_shadowing (g : NxDiGraph) : List (Str × Str) :=
  (dedupF (g.nodeList.map lastSeg)).flatMap (fun k =>
    let ns := g.nodeList.filter (fun n => decide (lastSeg n = k))
    if 1 < ns.length ∧ 1 < (dedupF (ns.map firstSeg)).length then allPairs ns else [])

/-- `AdvancedDetection.detect_long_dependency_chains`: over every ordered pair
of distinct nodes of `g`, all simple paths with `cutoff = max_length + 1`,
kept when `len(path) > max_length`.  Characteristic function of the returned
set of paths; the Python default for `max_length` is 5. -/
def detect_long_dependency_chains (g : NxDiGraph) (max_length : Nat) (p : List Str) : Bool :=
  g.nodeList.any (fun s => g.nodeList.any (fun t =>
    decide (s ≠ t) && isSimplePathUpToB g (max_length + 1) s t p &&
      decide (max_length < p.length)))

/-- `AdvancedDetection.detect_isolated_repositories`: nodes with zero
in-degree whose `repo_type` attribute is `'local'`. -/
def detect_isolated_repositories (g : NxDiGraph) : List Str :=
  g.nodeList.filter (fun n => decide (g.inDegree n = 0) && decide (g.repoTypeOf n = some "local"))

/-- The payload of one category of the combined report: a set of node lists
(cycles or paths, given by its characteristic function), a list of node
pairs, or a list of nodes. -/
inductive FindingValue where
  | cycSet (f : List Str → Bool)
  | pairList (l : List (Str × Str))
  | nodeGroup (l : List Str)

/-- `AdvancedDetection.detect_all_issues`: the combined report, a dict from
category name to that detector's result, with exactly the six keys the Python
function inserts, in insertion order. -/
def detect_all_issues (g : NxDiGraph) : List (String × FindingValue) :=
  [("include_cycles", FindingValue.cycSet (find_include_cycles g)),
   ("remote_chains", FindingValue.cycSet (find_remote_chains g)),
   ("cross_instance_loops", FindingValue.cycSet (find_cross_instance_loops g)),
   ("shadowed_repositories", FindingValue.pairList (detect_repository_shadowing g)),
   ("long_dependency_chains", FindingValue.cycSet (detect_long_dependency_chains g 5)),
   ("isolated_repositories", FindingValue.nodeGroup (detect_isolated_repositories g))]

/-- A repository record as fetched from one instance: the fields of the raw
metadata dict that `build_repository_graph` reads (`type`, `packageType`,
`url` for remote repositories, `repositories` for virtual ones). -/
structure RepoData where
  type : Option String
  packageType : Option String
  url : Option Str
  repositories : Option (List Str)
deriving DecidableEq, Repr

/-- An Artifactory instance as the builder sees it: its name, its base URL
(already normalized, no trailing slash), and its fetched repositories as an
insertion-ordered key-to-record mapping. -/
structure ArtifactoryInstance where
  name : Str
  url : Str
  repositories : List (Str × RepoData)
deriving DecidableEq, Repr

/-- The node identifier `f"{instance.name}:{repo_key}"`. -/
def nodeId (iname k : Str) : Str := iname ++ ':' :: k

/-- The attribute record the builder attaches to a node. -/
def mkNodeData (i : ArtifactoryInstance) (k : Str) (d : RepoData) : NodeData :=
  ⟨some i.name, some k, some (d.type.getD "unknown"), some (d.packageType.getD "unknown")⟩

/-- The node-insertion pass of `build_repository_graph`: one `add_node` per
`(instance, repo_key, repo_data)` triple, before any edge is added. -/
def buildNodesGraph (insts : List ArtifactoryInstance) : NxDiGraph :=
  (insts.flatMap (fun i =>
      i.repositories.map (fun kd => (nodeId i.name kd.1, mkNodeData i kd.1 kd.2)))).foldl
    (fun g p => g.addNode p.1 p.2) ⟨[], []⟩

/-- The `url_path` the builder computes for a matched base URL: strip the
base URL prefix, then strip leading and trailing slashes. -/
def resolvedPath (baseUrl remoteUrl : Str) : Str :=
  stripChar '/' (remoteUrl.drop baseUrl.length)

/-- Python `parts[-1]` of `url_path.split('/')`: the last slash-delimited
segment, the candidate target repository key. -/
def lastSlashSeg (s : Str) : Str := (splitOnChar '/' s).getLastD []

/-- The remote-edge resolution of `build_repository_graph` for one remote
repository: for every configured instance whose base URL is a prefix of the
repository's `url`, strip the base URL, strip slashes, skip `api/` paths,
take the last path segment, and emit an edge only when that segment is a
repository key of the target instance. -/
def remoteEdgeCandidates (insts : List ArtifactoryInstance) (i : ArtifactoryInstance)
    (k : Str) (d : RepoData) : List (Str × Str) :=
  if d.type = some "remote" then
    insts.filterMap (fun tgt =>
      if hasPfx tgt.url (d.url.getD []) then
        if hasPfx (chars "api/") (resolvedPath tgt.url (d.url.getD [])) then none
        else
          if lastSlashSeg (resolvedPath tgt.url (d.url.getD [])) ∈ tgt.repositories.map Prod.fst
          then
            some (nodeId i.name k,
              nodeId tgt.name (lastSlashSeg (resolvedPath tgt.url (d.url.getD []))))
          else none
      else none)
  else []

/-- The include-edge resolution of `build_repository_graph` for one virtual
repository: one edge per declared include that is a repository key of the
same instance. -/
def includeEdgeCandidates (i : ArtifactoryInstance) (k : Str) (d : RepoData) :
    List (Str × Str) :=
  if d.type = some "virtual" then
    (d.repositories.getD []).filterMap (fun inc =>
      if inc ∈ i.repositories.map Prod.fst then some (nodeId i.name k, nodeId i.name inc)
      else none)
  else []

/-- The sequence of `add_edge` calls the edge pass of
`build_repository_graph` performs, in program order: for every instance and
repository, first the remote-typed edges, then the includes-typed edges. -/
def edgeCandidates (insts : List ArtifactoryInstance) : List (Str × Str × String) :=
  insts.flatMap (fun i => i.repositories.flatMap (fun kd =>
    (remoteEdgeCandidates insts i kd.1 kd.2).map (fun uv => (uv.1, uv.2, "remote"))
      ++ (includeEdgeCandidates i kd.1 kd.2).map (fun uv => (uv.1, uv.2, "includes"))))

/-- `JFrogAnalyser.build_repository_graph`: the node-insertion pass followed
by the edge pass. -/
def build_repository_graph (insts : List ArtifactoryInstance) : NxDiGraph :=
  (edgeCandidates insts).foldl (fun g c => g.addEdge c.1 c.2.1 (some c.2.2))
    (buildNodesGraph insts)

/-- `JFrogAnalyser.detect_loops`: `list(nx.simple_cycles(graph))`, as the
membership predicate of the returned set of cycles. -/
def detect_loops (g : NxDiGraph) (c : List Str) : Bool := isSimpleCycleB g c

/-- `JFrogAnalyser.detect_remote_to_virtual_issues`: for every node of
`repo_type` `'remote'`, every direct successor of `repo_type` `'virtual'`,
as a pair, in node order. -/
def detect_remote_to_virtual_issues (g : NxDiGraph) : List (Str × Str) :=
  g.nodeList.flatMap (fun n =>
    if g.repoTypeOf n = some "remote" then
      (g.successors n).filterMap (fun s =>
        if g.repoTypeOf s = some "virtual" then some (n, s) else none)
    else [])

/-- Modelled from the spec: the graph obtained from `G` by dropping every
edge whose type is not `includes`, keeping all nodes (the comparison graph of
the include-cycles refinement property). -/
def dropNonIncludesGraph (g : NxDiGraph) : NxDiGraph :=
  { nodes := g.nodes, edges := g.edges.filter (fun e => decide (e.typ = some "includes")) }

/-- Instance `A` of the two-instance scenario: virtual `v1` includes local `l1`. -/
def instA : ArtifactoryInstance :=
  { name := chars "A", url := chars "http://a/art",
    repositories :=
      [(chars "v1",
        { type := some "virtual", packageType := none, url := none,
          repositories := some [chars "l1"] }),
       (chars "l1",
        { type := some "local", packageType := none, url := none, repositories := none })] }

/-- Instance `B` of the two-instance scenario: remote `r1` backed by
`http://a/art/v1`. -/
def instB : ArtifactoryInstance :=
  { name := chars "B", url := chars "http://b/art",
    repositories :=
      [(chars "r1",
        { type := some "remote", packageType := none, url := some (chars "http://a/art/v1"),
          repositories := none })] }

/-- The two-instance scenario input. -/
def scenarioInsts : List ArtifactoryInstance := [instA, instB]

/-- The graph the builder produces on the two-instance scenario. -/
def scenarioGraph : NxDiGraph := build_repository_graph scenarioInsts

/-- Instance `A` of the shadowing scenario: one local repository keyed `shared`. -/
def instAshared : ArtifactoryInstance :=
  { name := chars "A", url := chars "http://a/art",
    repositories :=
      [(chars "shared",
        { type := some "local", packageType := none, url := none, repositories := none })] }

/-- Instance `B` of the shadowing scenario: one local repository keyed `shared`. -/
def instBshared : ArtifactoryInstance :=
  { name := chars "B", url := chars "http://b/art",
    repositories :=
      [(chars "shared",
        { type := some "local", packageType := none, url := none, repositories := none })] }

/-- The shadowing scenario input. -/
def sharedInsts : List ArtifactoryInstance := [instAshared, instBshared]

/-- A graph with a single remote edge `A:r1 → A:r2`. -/
def remotePairGraph : NxDiGraph :=
  { nodes := [(chars "A:r1", emptyNodeData), (chars "A:r2", emptyNodeData)],
    edges := [⟨chars "A:r1", chars "A:r2", some "remote"⟩] }

/-- A seven-node directed line graph `n1 → n2 → ... → n7`. -/
def lineGraph7 : NxDiGraph :=
  { nodes := [(chars "n1", emptyNodeData), (chars "n2", emptyNodeData),
              (chars "n3", emptyNodeData), (chars "n4", emptyNodeData),
              (chars "n5", emptyNodeData), (chars "n6", emptyNodeData),
              (chars "n7", emptyNodeData)],
    edges := [⟨chars "n1", chars "n2", some "includes"⟩,
              ⟨chars "n2", chars "n3", some "includes"⟩,
              ⟨chars "n3", chars "n4", some "includes"⟩,
              ⟨chars "n4", chars "n5", some "includes"⟩,
              ⟨chars "n5", chars "n6", some "includes"⟩,
              ⟨chars "n6", chars "n7", some "includes"⟩] }

/-- The full seven-node path through `lineGraph7`. -/
def linePath7 : List Str :=
  [chars "n1", chars "n2", chars "n3", chars "n4", chars "n5", chars "n6", chars "n7"]

/-- A two-node cycle spanning instances `A` and `B`. -/
def crossLoopGraph : NxDiGraph :=
  { nodes := [(chars "A:x", emptyNodeData), (chars "B:y", emptyNodeData)],
    edges := [⟨chars "A:x", chars "B:y", some "remote"⟩,
              ⟨chars "B:y", chars "A:x", some "remote"⟩] }

/-- Edge membership characterizes `hasEdgeB`. -/
lemma hasEdgeB_iff (g : NxDiGraph) (u v : Str) :
    hasEdgeB g u v = true ↔ ∃ e, e ∈ g.edges ∧ e.src = u ∧ e.tgt = v := by
  simp [hasEdgeB, List.any_eq_true]

/-- `hasEdgeB` through the projection of the edge list to endpoint pairs. -/
lemma hasEdgeB_iff_pair (g : NxDiGraph) (u v : Str) :
    hasEdgeB g u v = true ↔ (u, v) ∈ g.edges.map (fun e => (e.src, e.tgt)) := by
  rw [hasEdgeB_iff]
  simp only [List.mem_map]
  constructor
  · rintro ⟨e, he, hs, ht⟩
    exact ⟨e, he, by rw [hs, ht]⟩
  · rintro ⟨e, he, hp⟩
    exact ⟨e, he, congrArg Prod.fst hp, congrArg Prod.snd hp⟩

/-- Implicit endpoint insertion leaves the edge list unchanged. -/
lemma addNodeIfAbsent_edges (g : NxDiGraph) (n : Str) :
    (g.addNodeIfAbsent n).edges = g.edges := by
  unfold NxDiGraph.addNodeIfAbsent
  split <;> rfl

/-- `addNode` leaves the edge list unchanged. -/
lemma addNode_edges (g : NxDiGraph) (n : Str) (d : NodeData) :
    (g.addNode n d).edges = g.edges := by
  unfold NxDiGraph.addNode
  split <;> rfl

/-- The endpoint-pair projection of the edge list after `addEdge`: the pair
is appended if new, otherwise the projection is unchanged. -/
lemma addEdge_pairs (g : NxDiGraph) (u v : Str) (t : Option String) :
    (g.addEdge u v t).edges.map (fun e => (e.src, e.tgt)) =
      if (u, v) ∈ g.edges.map (fun e => (e.src, e.tgt)) then
        g.edges.map (fun e => (e.src, e.tgt))
      else g.edges.map (fun e => (e.src, e.tgt)) ++ [(u, v)] := by
  unfold NxDiGraph.addEdge NxDiGraph.addEdgeRaw
  rw [addNodeIfAbsent_edges, addNodeIfAbsent_edges]
  split
  · simp only [List.map_map]
    refine List.map_congr_left ?_
    intro e _
    by_cases h : e.src = u ∧ e.tgt = v
    · simp [h]
    · simp [h]
  · simp

/-- `hasEdgeB` after `addEdge`: the new pair, or an existing edge. -/
lemma addEdge_hasEdge (g : NxDiGraph) (u v : Str) (t : Option String) (x y : Str) :
    hasEdgeB (g.addEdge u v t) x y = true ↔
      ((x = u ∧ y = v) ∨ hasEdgeB g x y = true) := by
  rw [hasEdgeB_iff_pair, hasEdgeB_iff_pair, addEdge_pairs]
  split
  · rename_i hmem
    constructor
    · exact fun h => Or.inr h
    · rintro (⟨hx, hy⟩ | h)
      · rw [hx, hy]; exact hmem
      · exact h
  · simp [Prod.ext_iff, or_comm]

/-- Case analysis on an edge of `g.addEdge u v t`. -/
lemma addEdge_mem_edges (g : NxDiGraph) (u v : Str) (t : Option String) (e : Edge)
    (he : e ∈ (g.addEdge u v t).edges) :
    e = ⟨u, v, t⟩ ∨
      ∃ e', e' ∈ g.edges ∧ e.src = e'.src ∧ e.tgt = e'.tgt ∧ (e.typ = t ∨ e.typ = e'.typ) := by
  unfold NxDiGraph.addEdge NxDiGraph.addEdgeRaw at he
  rw [addNodeIfAbsent_edges, addNodeIfAbsent_edges] at he
  split at he
  · simp only [List.mem_map] at he
    obtain ⟨e', he', hfe⟩ := he
    right
    by_cases h : e'.src = u ∧ e'.tgt = v
    · refine ⟨e', he', ?_, ?_, ?_⟩ <;> rw [← hfe] <;> simp [h]
      cases t with
      | none => right; rfl
      | some ty => left; rfl
    · refine ⟨e', he', ?_, ?_, ?_⟩ <;> rw [← hfe] <;> simp [h]
  · rw [List.mem_append] at he
    rcases he with he | he
    · right
      exact ⟨e, he, rfl, rfl, Or.inr rfl⟩
    · left
      simpa using he

/-- Congruence of the consecutive-edge check in the edge relation. -/
lemma chainEdgesB_congr (g1 g2 : NxDiGraph) (h : ∀ x y, hasEdgeB g1 x y = hasEdgeB g2 x y) :
    ∀ l, chainEdgesB g1 l = chainEdgesB g2 l
  | [] => rfl
  | [_] => rfl
  | a :: b :: rest => by
      simp only [chainEdgesB, h a b, chainEdgesB_congr g1 g2 h (b :: rest)]

/-- Every element of a chain except the last has an outgoing edge. -/
lemma chain_out (g : NxDiGraph) :
    ∀ l, chainEdgesB g l = true → ∀ x, x ∈ l.dropLast → ∃ y, hasEdgeB g x y = true
  | [] => by intro _ x hx; simp at hx
  | [_] => by intro _ x hx; simp at hx
  | a :: b :: rest => by
      intro h x hx
      rw [chainEdgesB, Bool.and_eq_true] at h
      rw [List.dropLast_cons₂, List.mem_cons] at hx
      rcases hx with hx | hx
      · exact ⟨b, hx ▸ h.1⟩
      · exact chain_out g (b :: rest) h.2 x hx

/-- Every element of a chain except the head has an incoming edge. -/
lemma chain_in (g : NxDiGraph) :
    ∀ l, chainEdgesB g l = true → ∀ x, x ∈ l.tail → ∃ y, hasEdgeB g y x = true
  | [] => by intro _ x hx; simp at hx
  | [_] => by intro _ x hx; simp at hx
  | a :: b :: rest => by
      intro h x hx
      rw [chainEdgesB, Bool.and_eq_true] at h
      rw [List.tail_cons, List.mem_cons] at hx
      rcases hx with hx | hx
      · exact ⟨a, hx ▸ h.1⟩
      · exact chain_in g (b :: rest) h.2 x hx

/-- Every consecutive pair of a chain is an edge. -/
lemma chain_zip (g : NxDiGraph) :
    ∀ l, chainEdgesB g l = true → ∀ u v, (u, v) ∈ l.zip l.tail → hasEdgeB g u v = true
  | [] => by intro _ u v huv; simp at huv
  | [_] => by intro _ u v huv; simp at huv
  | a :: b :: rest => by
      intro h u v huv
      rw [chainEdgesB, Bool.and_eq_true] at h
      rw [List.tail_cons, List.zip_cons_cons, List.mem_cons] at huv
      rcases huv with huv | huv
      · rw [Prod.mk.injEq] at huv
        rw [huv.1, huv.2]
        exact h.1
      · exact chain_zip g (b :: rest) h.2 u v huv

/-- Edges of the fold underlying `subgraphByType`, relative to any start graph. -/
lemma subgraph_fold_hasEdge (ty : String) :
    ∀ (L : List Edge) (h : NxDiGraph) (x y : Str),
      hasEdgeB (L.foldl (fun h e => if e.typ = some ty then h.addEdge e.src e.tgt none else h) h)
          x y = true ↔
        ((∃ e, e ∈ L ∧ e.src = x ∧ e.tgt = y ∧ e.typ = some ty) ∨ hasEdgeB h x y = true)
  | [], h, x, y => by simp
  | e :: L, h, x, y => by
      rw [List.foldl_cons, subgraph_fold_hasEdge ty L _ x y]
      by_cases ht : e.typ = some ty
      · rw [if_pos ht, addEdge_hasEdge]
        simp only [List.mem_cons]
        constructor
        · rintro (hL | ⟨hx, hy⟩ | hh)
          · rcases hL with ⟨e', he', rest⟩
            exact Or.inl ⟨e', Or.inr he', rest⟩
          · exact Or.inl ⟨e, Or.inl rfl, hx.symm, hy.symm, ht⟩
          · exact Or.inr hh
        · rintro (⟨e', (rfl | he'), hx, hy, ht'⟩ | hh)
          · exact Or.inr (Or.inl ⟨hx.symm, hy.symm⟩)
          · exact Or.inl ⟨e', he', hx, hy, ht'⟩
          · exact Or.inr (Or.inr hh)
      · rw [if_neg ht]
        simp only [List.mem_cons]
        constructor
        · rintro (hL | hh)
          · rcases hL with ⟨e', he', rest⟩
            exact Or.inl ⟨e', Or.inr he', rest⟩
          · exact Or.inr hh
        · rintro (⟨e', (rfl | he'), hx, hy, ht'⟩ | hh)
          · exact absurd ht' ht
          · exact Or.inl ⟨e', he', hx, hy, ht'⟩
          · exact Or.inr hh

/-- An edge of the `ty`-filtered subgraph is exactly a `ty`-typed edge of `g`. -/
lemma subgraph_hasEdge (g : NxDiGraph) (ty : String) (x y : Str) :
    hasEdgeB (subgraphByType g ty) x y = true ↔
      ∃ e, e ∈ g.edges ∧ e.src = x ∧ e.tgt = y ∧ e.typ = some ty := by
  rw [subgraphByType, subgraph_fold_hasEdge]
  simp [hasEdgeB]

/-- Cycle congruence in the edge relation. -/
lemma isSimpleCycleB_congr (g1 g2 : NxDiGraph)
    (h : ∀ x y, hasEdgeB g1 x y = hasEdgeB g2 x y) (c : List Str) :
    isSimpleCycleB g1 c = isSimpleCycleB g2 c := by
  cases c with
  | nil => rfl
  | cons a t => simp only [isSimpleCycleB, chainEdgesB_congr g1 g2 h]

/-- Every node of a simple cycle has an outgoing and an incoming edge. -/
lemma cycle_mem_edges (g : NxDiGraph) (c : List Str) (hc : isSimpleCycleB g c = true)
    (x : Str) (hx : x ∈ c) :
    (∃ y, hasEdgeB g x y = true) ∧ (∃ y, hasEdgeB g y x = true) := by
  cases c with
  | nil => simp at hx
  | cons a t =>
      rw [isSimpleCycleB, Bool.and_eq_true] at hc
      constructor
      · refine chain_out g ((a :: t) ++ [a]) hc.2 x ?_
        rw [List.dropLast_concat]
        exact hx
      · refine chain_in g ((a :: t) ++ [a]) hc.2 x ?_
        rw [List.cons_append, List.tail_cons]
        rcases List.mem_cons.mp hx with hx | hx
        · exact List.mem_append.mpr (Or.inr (by simp [hx]))
        · exact List.mem_append.mpr (Or.inl hx)

/-- A graph with no edges has no edge. -/
lemma hasEdgeB_nil (g : NxDiGraph) (hE : g.edges = []) (x y : Str) :
    hasEdgeB g x y = false := by
  simp [hasEdgeB, hE]

/-- A graph with no edges has no simple cycle. -/
lemma isSimpleCycleB_nil (g : NxDiGraph) (hE : g.edges = []) (c : List Str) :
    isSimpleCycleB g c = false := by
  cases c with
  | nil => rfl
  | cons a t =>
      cases t with
      | nil => simp [isSimpleCycleB, chainEdgesB, hasEdgeB, hE]
      | cons b t' => simp [isSimpleCycleB, chainEdgesB, hasEdgeB, hE]

/-- Elements of the deduplication fold come from the accumulator or the list. -/
lemma dedupF_fold_subset {α : Type} [DecidableEq α] :
    ∀ (l acc : List α) (x : α),
      x ∈ l.foldl (fun acc x => if x ∈ acc then acc else acc ++ [x]) acc → x ∈ acc ∨ x ∈ l
  | [], acc, x => fun h => Or.inl h
  | a :: l, acc, x => by
      intro h
      rw [List.foldl_cons] at h
      rcases dedupF_fold_subset l _ x h with h' | h'
      · by_cases ha : a ∈ acc
        · rw [if_pos ha] at h'
          exact Or.inl h'
        · rw [if_neg ha, List.mem_append] at h'
          rcases h' with h' | h'
          · exact Or.inl h'
          · exact Or.inr (by simp at h'; simp [h'])
      · exact Or.inr (List.mem_cons_of_mem a h')

/-- Elements of `dedupF l` are elements of `l`. -/
lemma dedupF_subset {α : Type} [DecidableEq α] (l : List α) (x : α) (h : x ∈ dedupF l) :
    x ∈ l := by
  rcases dedupF_fold_subset l [] x h with h' | h'
  · simp at h'
  · exact h'

/-- The deduplication fold preserves freedom from duplicates. -/
lemma dedupF_fold_nodup {α : Type} [DecidableEq α] :
    ∀ (l acc : List α), acc.Nodup →
      (l.foldl (fun acc x => if x ∈ acc then acc else acc ++ [x]) acc).Nodup
  | [], acc => fun h => h
  | a :: l, acc => by
      intro h
      rw [List.foldl_cons]
      refine dedupF_fold_nodup l _ ?_
      by_cases ha : a ∈ acc
      · rw [if_pos ha]; exact h
      · rw [if_neg ha]
        simp [List.nodup_append, h, ha]

/-- `dedupF` returns a duplicate-free list. -/
lemma dedupF_nodup {α : Type} [DecidableEq α] (l : List α) : (dedupF l).Nodup :=
  dedupF_fold_nodup l [] List.nodup_nil

/-- A list whose deduplication has two or more entries holds two distinct values. -/
lemma dedupF_two_distinct {α : Type} [DecidableEq α] (l : List α)
    (h : 1 < (dedupF l).length) : ∃ a, a ∈ l ∧ ∃ b, b ∈ l ∧ a ≠ b := by
  rcases hd : dedupF l with _ | ⟨a, _ | ⟨b, rest⟩⟩
  · rw [hd] at h; simp at h
  · rw [hd] at h; simp at h
  · have hnd := dedupF_nodup l
    rw [hd] at hnd
    have hab : a ≠ b := by
      intro hab
      rw [List.nodup_cons] at hnd
      exact hnd.1 (hab ▸ List.mem_cons_self b rest)
    refine ⟨a, dedupF_subset l a ?_, b, dedupF_subset l b ?_, hab⟩
    · rw [hd]; exact List.mem_cons_self a _
    · rw [hd]; exact List.mem_cons_of_mem a (List.mem_cons_self b rest)

/-- Both components of an `allPairs` element belong to the list. -/
lemma allPairs_mem {α : Type} :
    ∀ (l : List α) (x y : α), (x, y) ∈ allPairs l → x ∈ l ∧ y ∈ l
  | [], x, y => by simp [allPairs]
  | a :: l, x, y => by
      intro h
      rw [allPairs, List.mem_append] at h
      rcases h with h | h
      · rw [List.mem_map] at h
        obtain ⟨z, hz, hxy⟩ := h
        rw [Prod.mk.injEq] at hxy
        exact ⟨by simp [hxy.1], by rw [← hxy.2]; exact List.mem_cons_of_mem a hz⟩
      · have := allPairs_mem l x y h
        exact ⟨List.mem_cons_of_mem a this.1, List.mem_cons_of_mem a this.2⟩

/-- On a duplicate-free list, `allPairs` never contains both orders of a pair. -/
lemma allPairs_asym {α : Type} :
    ∀ (l : List α), l.Nodup → ∀ x y, (x, y) ∈ allPairs l → (y, x) ∉ allPairs l
  | [], _, x, y => by simp [allPairs]
  | a :: l, hnd, x, y => by
      intro hxy hyx
      rw [List.nodup_cons] at hnd
      rw [allPairs, List.mem_append] at hxy hyx
      rcases hxy with hxy | hxy
      · rw [List.mem_map] at hxy
        obtain ⟨z, hz, hxyz⟩ := hxy
        rw [Prod.mk.injEq] at hxyz
        rcases hyx with hyx | hyx
        · rw [List.mem_map] at hyx
          obtain ⟨w, hw, hyxw⟩ := hyx
          rw [Prod.mk.injEq] at hyxw
          exact hnd.1 (hyxw.1 ▸ hxyz.2 ▸ hz)
        · have := allPairs_mem l y x hyx
          exact hnd.1 (hxyz.1 ▸ this.2)
      · rcases hyx with hyx | hyx
        · rw [List.mem_map] at hyx
          obtain ⟨w, hw, hyxw⟩ := hyx
          rw [Prod.mk.injEq] at hyxw
          have := allPairs_mem l x y hxy
          exact hnd.1 (by rw [hyxw.1]; exact this.2)
        · exact allPairs_asym l hnd.2 x y hxy hyx

/-- The default-valued last element of a nonempty list is one of its elements. -/
lemma getLastD_mem {α : Type} :
    ∀ (l : List α) (d : α), l ≠ [] → l.getLastD d ∈ l
  | [], d => by intro h; exact absurd rfl h
  | [a], d => by intro _; simp
  | a :: b :: l, d => by
      intro _
      rw [List.getLastD_cons]
      exact List.mem_cons_of_mem a (getLastD_mem (b :: l) a (by simp))

/-- In a duplicate-free list of two or more elements, head and last differ. -/
lemma nodup_head_ne_last {α : Type} (l : List α) (d : α) (hnd : l.Nodup)
    (hlen : 2 ≤ l.length) : l.headD d ≠ l.getLastD d := by
  cases l with
  | nil => simp at hlen
  | cons a t =>
      cases t with
      | nil => simp at hlen
      | cons b t' =>
          rw [List.headD_cons, List.getLastD_cons]
          rw [List.nodup_cons] at hnd
          intro h
          exact hnd.1 (h ▸ getLastD_mem (b :: t') a (by simp))

/-- The node list after `addNode`: unchanged when the name is present,
otherwise extended by it. -/
lemma addNode_nodeList (g : NxDiGraph) (n : Str) (d : NodeData) :
    (g.addNode n d).nodeList =
      if n ∈ g.nodeList then g.nodeList else g.nodeList ++ [n] := by
  unfold NxDiGraph.addNode NxDiGraph.nodeList
  split
  · simp only [List.map_map]
    refine List.map_congr_left ?_
    intro p _
    by_cases hp : p.1 = n
    · simp [hp]
    · simp [hp]
  · simp

/-- Node membership is preserved by `addNode`. -/
lemma addNode_nodeList_mono (g : NxDiGraph) (n m : Str) (d : NodeData)
    (h : m ∈ g.nodeList) : m ∈ (g.addNode n d).nodeList := by
  rw [addNode_nodeList]
  split
  · exact h
  · exact List.mem_append.mpr (Or.inl h)

/-- `addNode` makes its node name present. -/
lemma addNode_nodeList_self (g : NxDiGraph) (n : Str) (d : NodeData) :
    n ∈ (g.addNode n d).nodeList := by
  rw [addNode_nodeList]
  split
  · assumption
  · simp

/-- Node membership is preserved by the node-insertion fold. -/
lemma foldl_addNode_mono :
    ∀ (L : List (Str × NodeData)) (g : NxDiGraph) (m : Str), m ∈ g.nodeList →
      m ∈ (L.foldl (fun g p => g.addNode p.1 p.2) g).nodeList
  | [], _, _ => fun h => h
  | p :: L, g, m => fun h =>
      foldl_addNode_mono L _ m (addNode_nodeList_mono g p.1 m p.2 h)

/-- Every name inserted by the node-insertion fold is present afterwards. -/
lemma foldl_addNode_mem :
    ∀ (L : List (Str × NodeData)) (g : NxDiGraph) (p : Str × NodeData), p ∈ L →
      p.1 ∈ (L.foldl (fun g p => g.addNode p.1 p.2) g).nodeList
  | [], g, p => by simp
  | q :: L, g, p => by
      intro h
      rcases List.mem_cons.mp h with h | h
      · rw [List.foldl_cons]
        exact foldl_addNode_mono L _ p.1 (h ▸ addNode_nodeList_self g q.1 q.2)
      · exact foldl_addNode_mem L _ p h

/-- The node-insertion fold adds no edges. -/
lemma foldl_addNode_edges :
    ∀ (L : List (Str × NodeData)) (g : NxDiGraph),
      (L.foldl (fun g p => g.addNode p.1 p.2) g).edges = g.edges
  | [], g => rfl
  | p :: L, g => by
      rw [List.foldl_cons, foldl_addNode_edges L _, addNode_edges]

/-- The node pass of the builder produces no edges. -/
lemma buildNodesGraph_edges (insts : List ArtifactoryInstance) :
    (buildNodesGraph insts).edges = [] := by
  unfold buildNodesGraph
  rw [foldl_addNode_edges]

/-- Every repository of every instance has its node inserted by the node pass. -/
lemma buildNodesGraph_mem (insts : List ArtifactoryInstance) (i : ArtifactoryInstance)
    (hi : i ∈ insts) (kd : Str × RepoData) (hkd : kd ∈ i.repositories) :
    nodeId i.name kd.1 ∈ (buildNodesGraph insts).nodeList := by
  unfold buildNodesGraph
  refine foldl_addNode_mem _ _ (nodeId i.name kd.1, mkNodeData i kd.1 kd.2) ?_
  rw [List.mem_flatMap]
  exact ⟨i, hi, List.mem_map.mpr ⟨kd, hkd, rfl⟩⟩

/-- Shape of a resolved remote-edge candidate: the source is the remote
repository's node, the target is a repository node of some configured
instance. -/
lemma remoteEdgeCandidates_shape (insts : List ArtifactoryInstance)
    (i : ArtifactoryInstance) (k : Str) (d : RepoData) (u v : Str)
    (h : (u, v) ∈ remoteEdgeCandidates insts i k d) :
    u = nodeId i.name k ∧
      ∃ tgt, tgt ∈ insts ∧ ∃ kd', kd' ∈ tgt.repositories ∧ v = nodeId tgt.name kd'.1 := by
  unfold remoteEdgeCandidates at h
  split at h
  · rw [List.mem_filterMap] at h
    obtain ⟨tgt, htgt, hf⟩ := h
    split at hf
    · split at hf
      · exact absurd hf (by simp)
      · split at hf
        · rename_i hk
          rw [Option.some.injEq, Prod.mk.injEq] at hf
          obtain ⟨kd', hkd', hk1⟩ := List.mem_map.mp hk
          exact ⟨hf.1.symm, tgt, htgt, kd', hkd', by rw [← hf.2, hk1]⟩
        · exact absurd hf (by simp)
    · exact absurd hf (by simp)
  · simp at h

/-- Shape of an include-edge candidate: both endpoints are repository nodes
of the declaring instance. -/
lemma includeEdgeCandidates_shape (i : ArtifactoryInstance) (k : Str) (d : RepoData)
    (u v : Str) (h : (u, v) ∈ includeEdgeCandidates i k d) :
    u = nodeId i.name k ∧ ∃ kd', kd' ∈ i.repositories ∧ v = nodeId i.name kd'.1 := by
  unfold includeEdgeCandidates at h
  split at h
  · rw [List.mem_filterMap] at h
    obtain ⟨inc, hinc, hf⟩ := h
    split at hf
    · rename_i hk
      rw [Option.some.injEq, Prod.mk.injEq] at hf
      obtain ⟨kd', hkd', hk1⟩ := List.mem_map.mp hk
      exact ⟨hf.1.symm, kd', hkd', by rw [← hf.2, hk1]⟩
    · exact absurd hf (by simp)
  · simp at h

/-- Both endpoints of every edge candidate are nodes the node pass inserted. -/
lemma edgeCandidates_endpoints (insts : List ArtifactoryInstance) (c : Str × Str × String)
    (h : c ∈ edgeCandidates insts) :
    c.1 ∈ (buildNodesGraph insts).nodeList ∧ c.2.1 ∈ (buildNodesGraph insts).nodeList := by
  unfold edgeCandidates at h
  rw [List.mem_flatMap] at h
  obtain ⟨i, hi, h⟩ := h
  rw [List.mem_flatMap] at h
  obtain ⟨kd, hkd, h⟩ := h
  rw [List.mem_append] at h
  rcases h with h | h
  · rw [List.mem_map] at h
    obtain ⟨uv, huv, hc⟩ := h
    obtain ⟨hu, tgt, htgt, kd', hkd', hv⟩ :=
      remoteEdgeCandidates_shape insts i kd.1 kd.2 uv.1 uv.2 huv
    rw [← hc]
    constructor
    · rw [hu]
      exact buildNodesGraph_mem insts i hi kd hkd
    · rw [hv]
      exact buildNodesGraph_mem insts tgt htgt kd' hkd'
  · rw [List.mem_map] at h
    obtain ⟨uv, huv, hc⟩ := h
    obtain ⟨hu, kd', hkd', hv⟩ := includeEdgeCandidates_shape i kd.1 kd.2 uv.1 uv.2 huv
    rw [← hc]
    constructor
    · rw [hu]
      exact buildNodesGraph_mem insts i hi kd hkd
    · rw [hv]
      exact buildNodesGraph_mem insts i hi kd' hkd'

/-- Every edge type among the candidates is the literal tag attached to it. -/
lemma edgeCandidates_typ (insts : List ArtifactoryInstance) (c : Str × Str × String)
    (h : c ∈ edgeCandidates insts) : c.2.2 = "remote" ∨ c.2.2 = "includes" := by
  unfold edgeCandidates at h
  rw [List.mem_flatMap] at h
  obtain ⟨i, _, h⟩ := h
  rw [List.mem_flatMap] at h
  obtain ⟨kd, _, h⟩ := h
  rw [List.mem_append] at h
  rcases h with h | h <;> rw [List.mem_map] at h <;> obtain ⟨uv, _, hc⟩ := h
  · left; rw [← hc]
  · right; rw [← hc]

/-- Invariant preservation of edge-endpoint properties under the edge fold of
the builder: if every candidate endpoint satisfies `P` and every existing
edge's endpoints satisfy `P`, so do all edges after the fold. -/
lemma foldl_addEdge_endpoints (P : Str → Prop) :
    ∀ (L : List (Str × Str × String)) (g : NxDiGraph),
      (∀ c, c ∈ L → P c.1 ∧ P c.2.1) →
      (∀ e, e ∈ g.edges → P e.src ∧ P e.tgt) →
      ∀ e, e ∈ (L.foldl (fun g c => g.addEdge c.1 c.2.1 (some c.2.2)) g).edges →
        P e.src ∧ P e.tgt
  | [], g, _, hg, e => fun he => hg e he
  | c :: L, g, hL, hg, e => by
      intro he
      rw [List.foldl_cons] at he
      refine foldl_addEdge_endpoints P L _ (fun c' hc' => hL c' (List.mem_cons_of_mem c hc'))
        ?_ e he
      intro e' he'
      rcases addEdge_mem_edges g c.1 c.2.1 (some c.2.2) e' he' with h | ⟨e'', he'', hs, ht, _⟩
      · rw [h]
        exact hL c (List.mem_cons_self c L)
      · rw [hs, ht]
        exact hg e'' he''

/-- Invariant preservation of edge-type properties under the edge fold. -/
lemma foldl_addEdge_typ (Q : Option String → Prop) :
    ∀ (L : List (Str × Str × String)) (g : NxDiGraph),
      (∀ c, c ∈ L → Q (some c.2.2)) →
      (∀ e, e ∈ g.edges → Q e.typ) →
      ∀ e, e ∈ (L.foldl (fun g c => g.addEdge c.1 c.2.1 (some c.2.2)) g).edges → Q e.typ
  | [], g, _, hg, e => fun he => hg e he
  | c :: L, g, hL, hg, e => by
      intro he
      rw [List.foldl_cons] at he
      refine foldl_addEdge_typ Q L _ (fun c' hc' => hL c' (List.mem_cons_of_mem c hc'))
        ?_ e he
      intro e' he'
      rcases addEdge_mem_edges g c.1 c.2.1 (some c.2.2) e' he' with h | ⟨e'', he'', _, _, ht⟩
      · rw [h]
        exact hL c (List.mem_cons_self c L)
      · rcases ht with ht | ht
        · rw [ht]
          exact hL c (List.mem_cons_self c L)
        · rw [ht]
          exact hg e'' he''

/-- `addEdge` preserves per-pair uniqueness of the edge list. -/
lemma addEdge_pairUnique (g : NxDiGraph) (u v : Str) (t : Option String)
    (hg : ∀ e1 e2, e1 ∈ g.edges → e2 ∈ g.edges → e1.src = e2.src → e1.tgt = e2.tgt → e1 = e2) :
    ∀ e1 e2, e1 ∈ (g.addEdge u v t).edges → e2 ∈ (g.addEdge u v t).edges →
      e1.src = e2.src → e1.tgt = e2.tgt → e1 = e2 := by
  intro e1 e2 h1 h2 hs ht
  unfold NxDiGraph.addEdge NxDiGraph.addEdgeRaw at h1 h2
  rw [addNodeIfAbsent_edges, addNodeIfAbsent_edges] at h1 h2
  by_cases hmem : (u, v) ∈ g.edges.map (fun e => (e.src, e.tgt))
  · rw [if_pos hmem] at h1 h2
    simp only [List.mem_map] at h1 h2
    obtain ⟨a, ha, hfa⟩ := h1
    obtain ⟨b, hb, hfb⟩ := h2
    have hsrc : ∀ (x : Edge),
        (if x.src = u ∧ x.tgt = v then Edge.mk x.src x.tgt (t.orElse fun _ => x.typ) else x).src
          = x.src := by
      intro x; split <;> rfl
    have htgt : ∀ (x : Edge),
        (if x.src = u ∧ x.tgt = v then Edge.mk x.src x.tgt (t.orElse fun _ => x.typ) else x).tgt
          = x.tgt := by
      intro x; split <;> rfl
    have hab : a = b := by
      refine hg a b ha hb ?_ ?_
      · rw [← hsrc a, ← hsrc b, hfa, hfb, hs]
      · rw [← htgt a, ← htgt b, hfa, hfb, ht]
    rw [← hfa, ← hfb, hab]
  · rw [if_neg hmem] at h1 h2
    rw [List.mem_append] at h1 h2
    rcases h1 with h1 | h1 <;> rcases h2 with h2 | h2
    · exact hg e1 e2 h1 h2 hs ht
    · exfalso
      apply hmem
      rw [List.mem_singleton] at h2
      refine List.mem_map.mpr ⟨e1, h1, ?_⟩
      rw [hs, ht, h2]
    · exfalso
      apply hmem
      rw [List.mem_singleton] at h1
      refine List.mem_map.mpr ⟨e2, h2, ?_⟩
      rw [← hs, ← ht, h1]
    · rw [List.mem_singleton] at h1 h2
      rw [h1, h2]

/-- The edge fold preserves per-pair uniqueness. -/
lemma foldl_addEdge_pairUnique :
    ∀ (L : List (Str × Str × String)) (g : NxDiGraph),
      (∀ e1 e2, e1 ∈ g.edges → e2 ∈ g.edges → e1.src = e2.src → e1.tgt = e2.tgt → e1 = e2) →
      ∀ e1 e2, e1 ∈ (L.foldl (fun g c => g.addEdge c.1 c.2.1 (some c.2.2)) g).edges →
        e2 ∈ (L.foldl (fun g c => g.addEdge c.1 c.2.1 (some c.2.2)) g).edges →
        e1.src = e2.src → e1.tgt = e2.tgt → e1 = e2
  | [], g, hg => hg
  | c :: L, g, hg => by
      rw [List.foldl_cons]
      exact foldl_addEdge_pairUnique L _ (addEdge_pairUnique g c.1 c.2.1 (some c.2.2) hg)

/-- Every edge of the built graph has both endpoints among the nodes the
node-insertion pass inserted. -/
lemma build_edges_endpoints (insts : List ArtifactoryInstance) (e : Edge)
    (he : e ∈ (build_repository_graph insts).edges) :
    e.src ∈ (buildNodesGraph insts).nodeList ∧ e.tgt ∈ (buildNodesGraph insts).nodeList := by
  refine foldl_addEdge_endpoints (fun n => n ∈ (buildNodesGraph insts).nodeList)
    (edgeCandidates insts) (buildNodesGraph insts)
    (fun c hc => edgeCandidates_endpoints insts c hc) ?_ e he
  intro e' he'
  rw [buildNodesGraph_edges] at he'
  simp at he'

/-- Every edge of the built graph is typed `remote` or `includes`. -/
lemma build_edges_typ (insts : List ArtifactoryInstance) (e : Edge)
    (he : e ∈ (build_repository_graph insts).edges) :
    e.typ = some "remote" ∨ e.typ = some "includes" := by
  refine foldl_addEdge_typ (fun t => t = some "remote" ∨ t = some "includes")
    (edgeCandidates insts) (buildNodesGraph insts) ?_ ?_ e he
  · intro c hc
    rcases edgeCandidates_typ insts c hc with h | h
    · left; rw [h]
    · right; rw [h]
  · intro e' he'
    rw [buildNodesGraph_edges] at he'
    simp at he'

/-- The built graph's edge list is duplicate-free per endpoint pair. -/
lemma build_pairUnique (insts : List ArtifactoryInstance) :
    ∀ e1 e2, e1 ∈ (build_repository_graph insts).edges →
      e2 ∈ (build_repository_graph insts).edges →
      e1.src = e2.src → e1.tgt = e2.tgt → e1 = e2 := by
  refine foldl_addEdge_pairUnique (edgeCandidates insts) (buildNodesGraph insts) ?_
  intro e1 e2 h1
  rw [buildNodesGraph_edges] at h1
  simp at h1

/-- C4: for every graph, the isolated-repositories detector returns exactly
the nodes with zero in-degree whose `repo_type` attribute is `local`. -/
theorem isolated_repositories_characterization (g : NxDiGraph) (n : Str) :
    n ∈ detect_isolated_repositories g ↔
      (n ∈ g.nodeList ∧ g.inDegree n = 0 ∧ g.repoTypeOf n = some "local") := by
  simp [detect_isolated_repositories, List.mem_filter, and_assoc]

/-- C6: for every graph, the include-cycles detector (computed on the
subgraph assembled from `includes` edges) agrees with the simple cycles of
the graph obtained by dropping every non-`includes` edge. -/
theorem include_cycles_eq_filtered_graph (g : NxDiGraph) (c : List Str) :
    find_include_cycles g c = isSimpleCycleB (dropNonIncludesGraph g) c := by
  refine isSimpleCycleB_congr _ _ ?_ c
  intro x y
  rw [Bool.eq_iff_iff, subgraph_hasEdge, hasEdgeB_iff]
  constructor
  · rintro ⟨e, he, hs, ht, hty⟩
    refine ⟨e, ?_, hs, ht⟩
    rw [dropNonIncludesGraph]
    simp [List.mem_filter, he, hty]
  · rintro ⟨e, he, hs, ht⟩
    rw [dropNonIncludesGraph] at he
    simp only [List.mem_filter, decide_eq_true_eq] at he
    exact ⟨e, he.1, hs, ht, he.2⟩

/-- C7: every cycle reported by the cross-instance-loops detector is a simple
cycle of the graph and its nodes carry at least two distinct instance
prefixes. -/
theorem cross_instance_loops_are_cycles (g : NxDiGraph) (c : List Str)
    (h : find_cross_instance_loops g c = true) :
    detect_loops g c = true ∧ ∃ x, x ∈ c ∧ ∃ y, y ∈ c ∧ firstSeg x ≠ firstSeg y := by
  rw [find_cross_instance_loops, Bool.and_eq_true, decide_eq_true_eq] at h
  refine ⟨h.1, ?_⟩
  obtain ⟨a, ha, b, hb, hab⟩ := dedupF_two_distinct _ h.2
  obtain ⟨x, hx, hxa⟩ := List.mem_map.mp ha
  obtain ⟨y, hy, hyb⟩ := List.mem_map.mp hb
  exact ⟨x, hx, y, hy, by rw [hxa, hyb]; exact hab⟩

/-- Witness for C7 on the concrete two-instance loop. -/
theorem cross_instance_loops_are_cycles_witness :
    detect_loops crossLoopGraph [chars "A:x", chars "B:y"] = true ∧
      ∃ x, x ∈ [chars "A:x", chars "B:y"] ∧
        ∃ y, y ∈ [chars "A:x", chars "B:y"] ∧ firstSeg x ≠ firstSeg y :=
  cross_instance_loops_are_cycles crossLoopGraph [chars "A:x", chars "B:y"] (by decide)

/-- C9: for every collection of instance records with distinct instance
names, every edge of the built graph has both endpoints among the nodes the
node-insertion pass inserted. -/
theorem build_edge_endpoints_in_node_pass (insts : List ArtifactoryInstance)
    (_hnames : (insts.map ArtifactoryInstance.name).Nodup) (e : Edge)
    (he : e ∈ (build_repository_graph insts).edges) :
    e.src ∈ (buildNodesGraph insts).nodeList ∧ e.tgt ∈ (buildNodesGraph insts).nodeList :=
  build_edges_endpoints insts e he

/-- Witness for C9 on the two-instance scenario's remote edge. -/
theorem build_edge_endpoints_in_node_pass_witness :
    chars "B:r1" ∈ (buildNodesGraph scenarioInsts).nodeList ∧
      chars "A:v1" ∈ (buildNodesGraph scenarioInsts).nodeList :=
  build_edge_endpoints_in_node_pass scenarioInsts (by decide)
    ⟨chars "B:r1", chars "A:v1", some "remote"⟩ (by decide)

/-- C10: every edge of a built graph is typed exactly `remote` or `includes`;
the remote-only and includes-only edge filters cover every edge, and no edge
pair lies in both filtered subgraphs. -/
theorem build_edge_types_partition (insts : List ArtifactoryInstance) (e : Edge)
    (he : e ∈ (build_repository_graph insts).edges) :
    (e.typ = some "remote" ∨ e.typ = some "includes") ∧
      (hasEdgeB (subgraphByType (build_repository_graph insts) "remote") e.src e.tgt = true ∨
        hasEdgeB (subgraphByType (build_repository_graph insts) "includes") e.src e.tgt = true) ∧
      ¬(hasEdgeB (subgraphByType (build_repository_graph insts) "remote") e.src e.tgt = true ∧
        hasEdgeB (subgraphByType (build_repository_graph insts) "includes") e.src e.tgt = true) := by
  have ht := build_edges_typ insts e he
  refine ⟨ht, ?_, ?_⟩
  · rcases ht with h | h
    · left
      rw [subgraph_hasEdge]
      exact ⟨e, he, rfl, rfl, h⟩
    · right
      rw [subgraph_hasEdge]
      exact ⟨e, he, rfl, rfl, h⟩
  · rintro ⟨hr, hi⟩
    rw [subgraph_hasEdge] at hr hi
    obtain ⟨e1, he1, hs1, ht1, hty1⟩ := hr
    obtain ⟨e2, he2, hs2, ht2, hty2⟩ := hi
    have h12 : e1 = e2 :=
      build_pairUnique insts e1 e2 he1 he2 (by rw [hs1, hs2]) (by rw [ht1, ht2])
    rw [h12, hty2] at hty1
    exact absurd hty1 (by decide)

/-- Witness for C10 on the two-instance scenario's includes edge. -/
theorem build_edge_types_partition_witness :
    ((some "includes" : Option String) = some "remote" ∨
        (some "includes" : Option String) = some "includes") ∧
      (hasEdgeB (subgraphByType (build_repository_graph scenarioInsts) "remote")
            (chars "A:v1") (chars "A:l1") = true ∨
        hasEdgeB (subgraphByType (build_repository_graph scenarioInsts) "includes")
            (chars "A:v1") (chars "A:l1") = true) ∧
      ¬(hasEdgeB (subgraphByType (build_repository_graph scenarioInsts) "remote")
            (chars "A:v1") (chars "A:l1") = true ∧
        hasEdgeB (subgraphByType (build_repository_graph scenarioInsts) "includes")
            (chars "A:v1") (chars "A:l1") = true) :=
  build_edge_types_partition scenarioInsts ⟨chars "A:v1", chars "A:l1", some "includes"⟩
    (by decide)

/-- C8: the shadowing detector reports each unordered pair at most once (on
any graph with a duplicate-free node list), and on the two-instance `shared`
scenario it reports exactly the single pair `(A:shared, B:shared)`. -/
theorem shadowing_unordered_once :
    (∀ g a b, (NxDiGraph.nodeList g).Nodup → (a, b) ∈ detect_repository_shadowing g →
        (b, a) ∉ detect_repository_shadowing g) ∧
      detect_repository_shadowing (build_repository_graph sharedInsts) =
        [(chars "A:shared", chars "B:shared")] := by
  constructor
  · intro g a b hnd hab hba
    simp only [detect_repository_shadowing, List.mem_flatMap] at hab hba
    obtain ⟨k, hk, hab'⟩ := hab
    obtain ⟨k', hk', hba'⟩ := hba
    split at hab'
    case isFalse => simp at hab'
    split at hba'
    case isFalse => simp at hba'
    have hbk : lastSeg b = k := by
      have := (allPairs_mem _ _ _ hab').2
      rw [List.mem_filter, decide_eq_true_eq] at this
      exact this.2
    have hbk' : lastSeg b = k' := by
      have := (allPairs_mem _ _ _ hba').1
      rw [List.mem_filter, decide_eq_true_eq] at this
      exact this.2
    rw [← hbk', hbk] at hba'
    exact allPairs_asym _ (List.Nodup.filter _ hnd) a b hab' hba'
  · decide

/-- Witness for C8: the reversed pair of the reported one is not reported. -/
theorem shadowing_unordered_once_witness :
    (chars "B:shared", chars "A:shared") ∉
      detect_repository_shadowing (build_repository_graph sharedInsts) :=
  shadowing_unordered_once.1 (build_repository_graph sharedInsts)
    (chars "A:shared") (chars "B:shared") (by decide) (by decide)

/-- Counterexample for C1: the remote-chains detector does report a path
consisting of a single direct edge (two nodes, one edge). -/
theorem remote_chains_report_single_edge :
    find_remote_chains remotePairGraph [chars "A:r1", chars "A:r2"] = true ∧
      ([chars "A:r1", chars "A:r2"] : List Str).length = 2 := by
  decide

/-- C1 (amended): every path reported by the remote-chains detector is a
simple path of at least two and at most eleven nodes whose consecutive pairs
are all `remote`-typed edges of the graph. -/
theorem remote_chains_paths_sound (g : NxDiGraph) (p : List Str)
    (h : find_remote_chains g p = true) :
    2 ≤ p.length ∧ p.length ≤ 11 ∧ p.Nodup ∧
      ∀ u v, (u, v) ∈ p.zip p.tail →
        ∃ e, e ∈ g.edges ∧ e.src = u ∧ e.tgt = v ∧ e.typ = some "remote" := by
  simp only [find_remote_chains, List.any_eq_true, Bool.and_eq_true, decide_eq_true_eq,
    isSimplePathUpToB, and_assoc] at h
  obtain ⟨s, hs, hdeg, t, ht, hne, hh, hl, hnd, hch, hle, hlen⟩ := h
  refine ⟨by omega, by omega, hnd, ?_⟩
  intro u v huv
  have hedge := chain_zip _ p hch u v huv
  rw [subgraph_hasEdge] at hedge
  exact hedge

/-- Witness for C1 (amended) on the single-remote-edge graph. -/
theorem remote_chains_paths_sound_witness :
    2 ≤ ([chars "A:r1", chars "A:r2"] : List Str).length ∧
      ([chars "A:r1", chars "A:r2"] : List Str).length ≤ 11 ∧
      ([chars "A:r1", chars "A:r2"] : List Str).Nodup ∧
      ∀ u v, (u, v) ∈ ([chars "A:r1", chars "A:r2"] : List Str).zip
          ([chars "A:r1", chars "A:r2"] : List Str).tail →
        ∃ e, e ∈ remotePairGraph.edges ∧ e.src = u ∧ e.tgt = v ∧ e.typ = some "remote" :=
  remote_chains_paths_sound remotePairGraph [chars "A:r1", chars "A:r2"] (by decide)

/-- Counterexample for C3: with the default `max_length = 5`, the detector
reports the seven-node path of the line graph, exceeding the claimed bound of
`max_length + 1 = 6` nodes. -/
theorem long_chains_exceed_claimed_bound :
    detect_long_dependency_chains lineGraph7 5 linePath7 = true ∧ 5 + 1 < linePath7.length := by
  decide

/-- C3 (amended): the long-dependency-chains detector reports exactly the
simple paths between distinct graph nodes whose node count exceeds
`max_length` and is at most `max_length + 2` (the networkx cutoff
`max_length + 1` counts edges). -/
theorem long_dependency_chains_characterization (g : NxDiGraph) (m : Nat) (p : List Str) :
    detect_long_dependency_chains g m p = true ↔
      (2 ≤ p.length ∧ p.Nodup ∧ chainEdgesB g p = true ∧ m < p.length ∧ p.length ≤ m + 2 ∧
        p.headD [] ∈ g.nodeList ∧ p.getLastD [] ∈ g.nodeList) := by
  simp only [detect_long_dependency_chains, List.any_eq_true, Bool.and_eq_true,
    decide_eq_true_eq, isSimplePathUpToB, and_assoc]
  constructor
  · rintro ⟨s, hs, t, ht, hne, hh, hl, hnd, hch, hle, hlen⟩
    have h2 : 2 ≤ p.length := by
      cases p with
      | nil => simp at hh
      | cons a q =>
          cases q with
          | nil =>
              rw [List.head?_cons, Option.some.injEq] at hh
              rw [List.getLast?_singleton, Option.some.injEq] at hl
              exact absurd (hh.symm.trans hl) hne
          | cons b q' => simp
    have hhd : p.headD [] = s := by
      cases p with
      | nil => simp at hh
      | cons a q =>
          rw [List.head?_cons, Option.some.injEq] at hh
          rw [List.headD_cons, hh]
    have hld : p.getLastD [] = t := by
      rw [List.getLastD_eq_getLast?, hl]
      rfl
    exact ⟨h2, hnd, hch, hlen, by omega, by rw [hhd]; exact hs, by rw [hld]; exact ht⟩
  · rintro ⟨h2, hnd, hch, hm, hle, hhead, hlast⟩
    have hne0 : p ≠ [] := by
      intro hp
      rw [hp] at h2
      simp at h2
    have hh : p.head? = some (p.headD []) := by
      cases p with
      | nil => exact absurd rfl hne0
      | cons a q => rfl
    have hl : p.getLast? = some (p.getLastD []) := by
      cases hq : p.getLast? with
      | none =>
          rw [List.getLast?_eq_none_iff] at hq
          exact absurd hq hne0
      | some y =>
          rw [List.getLastD_eq_getLast?, hq]
          rfl
    exact ⟨p.headD [], hhead, p.getLastD [], hlast,
      nodup_head_ne_last p [] hnd h2, hh, hl, hnd, hch, by omega, hm⟩

/-- Counterexample for C2: the combined report of the empty instance set does
not contain a `cycles` key (the Python dict has six keys, not eight). -/
theorem detect_all_issues_no_cycles_key :
    ("cycles" : String) ∉ (detect_all_issues (build_repository_graph [])).map Prod.fst := by
  decide

/-- C2 (amended): on the empty instance set every detector returns an empty
result, and the combined report holds exactly the six keys the code inserts,
each mapped to an empty result; the standalone cycle and remote-to-virtual
detectors are also empty. -/
theorem detect_all_issues_empty_instances :
    detect_all_issues (build_repository_graph []) =
      [("include_cycles", FindingValue.cycSet (fun _ => false)),
       ("remote_chains", FindingValue.cycSet (fun _ => false)),
       ("cross_instance_loops", FindingValue.cycSet (fun _ => false)),
       ("shadowed_repositories", FindingValue.pairList []),
       ("long_dependency_chains", FindingValue.cycSet (fun _ => false)),
       ("isolated_repositories", FindingValue.nodeGroup [])] ∧
      (∀ c, detect_loops (build_repository_graph []) c = false) ∧
      detect_remote_to_virtual_issues (build_repository_graph []) = [] := by
  have e1 : find_include_cycles (build_repository_graph []) = fun _ => false :=
    funext fun c => isSimpleCycleB_nil _ rfl c
  have e2 : find_remote_chains (build_repository_graph []) = fun _ => false :=
    funext fun _ => rfl
  have e3 : find_cross_instance_loops (build_repository_graph []) = fun _ => false :=
    funext fun c => by
      rw [find_cross_instance_loops, isSimpleCycleB_nil _ rfl c]
      rfl
  have e5 : detect_long_dependency_chains (build_repository_graph []) 5 = fun _ => false :=
    funext fun _ => rfl
  refine ⟨?_, fun c => isSimpleCycleB_nil _ rfl c, rfl⟩
  rw [detect_all_issues, e1, e2, e3, e5]
  rfl

/-- C5: on the two-instance scenario the builder produces exactly the
`includes` edge `A:v1 → A:l1` and the `remote` edge `B:r1 → A:v1`, the
remote-to-virtual check reports the pair `(B:r1, A:v1)`, and the graph has no
simple cycle. -/
theorem two_instance_scenario :
    scenarioGraph.edges =
        [⟨chars "A:v1", chars "A:l1", some "includes"⟩,
         ⟨chars "B:r1", chars "A:v1", some "remote"⟩] ∧
      (chars "B:r1", chars "A:v1") ∈ detect_remote_to_virtual_issues scenarioGraph ∧
      ∀ c, detect_loops scenarioGraph c = false := by
  refine ⟨by decide, by decide, ?_⟩
  intro c
  by_contra h
  have hc : detect_loops scenarioGraph c = true := by
    cases hvalue : detect_loops scenarioGraph c
    · exact absurd hvalue h
    · rfl
  have hedge : ∀ x y, hasEdgeB scenarioGraph x y = true →
      (x = chars "A:v1" ∧ y = chars "A:l1") ∨ (x = chars "B:r1" ∧ y = chars "A:v1") := by
    intro x y hxy
    rw [hasEdgeB_iff] at hxy
    obtain ⟨e, he, hs, ht⟩ := hxy
    have hE : scenarioGraph.edges =
        [⟨chars "A:v1", chars "A:l1", some "includes"⟩,
         ⟨chars "B:r1", chars "A:v1", some "remote"⟩] := by decide
    rw [hE] at he
    rcases List.mem_cons.mp he with rfl | he
    · exact Or.inl ⟨hs.symm, ht.symm⟩
    · rcases List.mem_cons.mp he with rfl | he
      · exact Or.inr ⟨hs.symm, ht.symm⟩
      · simp at he
  cases c with
  | nil => simp [detect_loops, isSimpleCycleB] at hc
  | cons a t =>
      have hmem : ∀ x, x ∈ a :: t → x = chars "A:v1" := by
        intro x hx
        obtain ⟨⟨y1, hy1⟩, ⟨y2, hy2⟩⟩ := cycle_mem_edges scenarioGraph (a :: t) hc x hx
        rcases hedge x y1 hy1 with ⟨hx1, _⟩ | ⟨hx1, _⟩
        · exact hx1
        · rcases hedge y2 x hy2 with ⟨_, hx2⟩ | ⟨_, hx2⟩
          · exact absurd (hx1.symm.trans hx2) (by decide)
          · exact absurd (hx1.symm.trans hx2) (by decide)
      have ha : a = chars "A:v1" := hmem a (List.mem_cons_self a t)
      have ht0 : t = [] := by
        cases t with
        | nil => rfl
        | cons b t2 =>
            have hb : b = chars "A:v1" := hmem b (by simp)
            rw [detect_loops, isSimpleCycleB, Bool.and_eq_true, decide_eq_true_eq] at hc
            have hnd := hc.1
            rw [List.nodup_cons] at hnd
            exact absurd (by rw [ha, ← hb]; exact List.mem_cons_self b t2) hnd.1
      rw [ha, ht0] at hc
      exact absurd hc (by decide)
